import Mathlib

/-!
A verification development for the personal chess database's position
indexing and pattern query engine.  The JavaScript sources
(`src/positionIndex.js` and the server-side pattern module) and the Go
ingestion pipeline (`internal/database` batch importer) are embedded
shallowly: every definition below mirrors one source function, with
JavaScript strings modelled as `List Char`/`String`, JavaScript 32-bit
coercions modelled with explicit modular arithmetic on `Int`, throwing
code modelled with `Option`, and the generated SQL of the query planner
modelled by its relational semantics over an explicit store.
-/

/-- A character is one of the run-length digits `'1'`..`'8'` of the board
encoding grammar (`char >= '1' && char <= '8'` in the source). -/
def isDigit18 (c : Char) : Bool :=
  '1' ≤ c && c ≤ '8'

/-- Numeric value of a digit character (`parseInt(char)` on `'1'`..`'8'`). -/
def digitVal (c : Char) : Nat :=
  c.toNat - 48

/-- Split a character list on a separator predicate, keeping empty groups,
mirroring JavaScript `String.prototype.split` with a one-character
separator (`"".split` yields one empty group). -/
def splitOnPred (p : Char → Bool) : List Char → List (List Char)
  | [] => [[]]
  | c :: rest =>
    if p c then [] :: splitOnPred p rest
    else
      match splitOnPred p rest with
      | [] => [[c]]
      | g :: gs => (c :: g) :: gs

/-- Split on one separator character (JavaScript `s.split(sep)`). -/
def splitOnChar (sep : Char) (l : List Char) : List (List Char) :=
  splitOnPred (fun c => c = sep) l

/-- The rank strings of the board field of a FEN:
`fen.split(' ')[0].split('/')` in the source. -/
def boardRanksOf (fen : String) : List (List Char) :=
  splitOnChar '/' ((splitOnChar ' ' fen.data).headD [])

/-- Width in files contributed by one board-encoding character: a
run-length digit contributes its value, a `'/'` contributes nothing (it
is skipped by every scanner), any other character occupies one square. -/
def charWidth (c : Char) : Nat :=
  if isDigit18 c then digitVal c else if c = '/' then 0 else 1

/-- Total file width of a character list under `charWidth`. -/
def rankWidth (l : List Char) : Nat :=
  (l.map charWidth).sum

/-- A board FEN is well formed when it has exactly eight ranks and each
rank spans exactly eight files, and the FEN has at least the three
space-separated fields (`board`, `turn`, `castling`) that
`computeZobristHash` reads. -/
def wellFormedFEN (fen : String) : Prop :=
  (boardRanksOf fen).length = 8 ∧
  (∀ r ∈ boardRanksOf fen, rankWidth r = 8) ∧
  3 ≤ (splitOnChar ' ' fen.data).length

instance (fen : String) : Decidable (wellFormedFEN fen) := by
  unfold wellFormedFEN; infer_instance

/-- Occupied squares of one rank string with their file numbers, mirroring
the inner loop of `extractPieceLocations`: digits advance the file
counter, any other character is recorded as a piece on the current file. -/
def rankPieces : List Char → Nat → List (Nat × Char)
  | [], _ => []
  | c :: rest, file =>
    if isDigit18 c then rankPieces rest (file + digitVal c)
    else (file, c) :: rankPieces rest (file + 1)

/-- `extractPieceLocations(fen)`: all `(square, piece)` facts of a board,
with `square = (7 - rank) * 8 + file` exactly as in the source. -/
def extractPieceLocations (fen : String) : List (Nat × Char) :=
  (List.range 8).flatMap fun r =>
    (rankPieces ((boardRanksOf fen).getD r []) 0).map
      (fun fc => ((7 - r) * 8 + fc.1, fc.2))

/-- Number of occurrences of one piece character in the board field,
mirroring the counting loop of `getMaterialSignature`. -/
def pieceCount (fen : String) (c : Char) : Nat :=
  ((splitOnChar ' ' fen.data).headD []).count c

/-- `getMaterialSignature(fen)`: the template string
`` `${P}${N}${B}${R}${Q}${K}-${p}${n}${b}${r}${q}${k}` `` of per-piece
decimal counts — variable-width decimal fields, concatenated, with a
single dash between the white and black halves. -/
def getMaterialSignature (fen : String) : String :=
  Nat.repr (pieceCount fen 'P') ++ Nat.repr (pieceCount fen 'N') ++
  Nat.repr (pieceCount fen 'B') ++ Nat.repr (pieceCount fen 'R') ++
  Nat.repr (pieceCount fen 'Q') ++ Nat.repr (pieceCount fen 'K') ++ "-" ++
  Nat.repr (pieceCount fen 'p') ++ Nat.repr (pieceCount fen 'n') ++
  Nat.repr (pieceCount fen 'b') ++ Nat.repr (pieceCount fen 'r') ++
  Nat.repr (pieceCount fen 'q') ++ Nat.repr (pieceCount fen 'k')

/-- JavaScript `ToUint32`: reduce an integer to its unsigned 32-bit
representative. -/
def toUint32 (i : Int) : Nat :=
  (i % (2 ^ 32 : Int)).toNat

/-- JavaScript `ToInt32`: the signed 32-bit value with the same low 32
bits. -/
def toInt32 (i : Int) : Int :=
  let u := toUint32 i
  if u < 2 ^ 31 then (u : Int) else (u : Int) - 2 ^ 32

/-- JavaScript `a ^ b`: both operands are coerced to 32 bits and the
bitwise xor is returned as a signed 32-bit integer. -/
def jsXor (a b : Int) : Int :=
  toInt32 (Int.ofNat (Nat.xor (toUint32 a) (toUint32 b)))

/-- The twelve piece symbols, in the order `generateZobristKeys` iterates
them. -/
def zobristPieceOrder : List Char :=
  ['p', 'n', 'b', 'r', 'q', 'k', 'P', 'N', 'B', 'R', 'Q', 'K']

/-- The key table built by `generateZobristKeys`.  `pieceKey sq c = none`
models a missing object property (`undefined`); likewise for `castling`. -/
structure ZKeys where
  pieceKey : Nat → Char → Option Nat
  blackToMove : Nat
  castling : Char → Option Nat

/-- `generateZobristKeys()`: the table is filled from the process's
`Math.floor(Math.random() * Number.MAX_SAFE_INTEGER)` draw stream, here
the explicit stream `rand` consumed in source order — square-major,
piece-minor (draw `sq * 12 + i` for the `i`-th piece symbol), then the
side-to-move key (draw 768) and the four castling keys (draws 769-772).
The table is rebuilt from a fresh stream at every process start; nothing
is persisted. -/
def generateZobristKeys (rand : Nat → Nat) : ZKeys where
  pieceKey := fun sq c =>
    if sq < 64 then
      (List.findIdx? (fun x => x = c) zobristPieceOrder).map
        (fun i => rand (sq * 12 + i))
    else none
  blackToMove := rand 768
  castling := fun c =>
    if c = 'K' then some (rand 769)
    else if c = 'Q' then some (rand 770)
    else if c = 'k' then some (rand 771)
    else if c = 'q' then some (rand 772)
    else none

/-- The board-scanning loop of `computeZobristHash`: walk the raw board
string, skip `'/'`, advance the square counter over run-length digits,
and xor the per-(square, piece) key into the hash for every piece
character.  A piece character at square index 64 or beyond reads
`keys[squareIndex]` as `undefined` and throws, modelled as `none`; for a
square in range a missing piece property xors `ToInt32(undefined) = 0`. -/
def zobristBoardFold (keys : ZKeys) : List Char → Int × Nat → Option (Int × Nat)
  | [], hs => some hs
  | c :: rest, (h, square) =>
    if c = '/' then zobristBoardFold keys rest (h, square)
    else if isDigit18 c then zobristBoardFold keys rest (h, square + digitVal c)
    else if square < 64 then
      zobristBoardFold keys rest
        (jsXor h (Int.ofNat ((keys.pieceKey square c).getD 0)), square + 1)
    else none

/-- One castling character of the third FEN field: the source xors the
castling key only when `zobristKeys.castling[right]` is truthy — the
property exists and is non-zero. -/
def zobristCastlingStep (keys : ZKeys) (h : Int) (c : Char) : Int :=
  match keys.castling c with
  | some k => if k = 0 then h else jsXor h (Int.ofNat k)
  | none => h

/-- The `if (turn === 'b') hash ^= zobristKeys.blackToMove` step. -/
def zobristTurnStep (keys : ZKeys) (turn : List Char) (h : Int) : Int :=
  if turn = ['b'] then jsXor h (Int.ofNat keys.blackToMove) else h

/-- The `if (castling !== '-') for (right of castling) ...` loop. -/
def zobristCastlingField (keys : ZKeys) (castl : List Char) (h : Int) : Int :=
  if castl = ['-'] then h else castl.foldl (zobristCastlingStep keys) h

/-- `computeZobristHash(fen)` before the final `toString`: fold the board
(field 0 of the FEN), xor the black-to-move key when the turn field is
`"b"`, and fold the castling field unless it is `"-"`. -/
def computeZobristHashInt (keys : ZKeys) (fen : String) : Option Int :=
  match zobristBoardFold keys ((splitOnChar ' ' fen.data).headD []) (0, 0) with
  | none => none
  | some hs =>
    some (zobristCastlingField keys ((splitOnChar ' ' fen.data).getD 2 [])
      (zobristTurnStep keys ((splitOnChar ' ' fen.data).getD 1 []) hs.1))

/-- `computeZobristHash(fen)`: the decimal string of the accumulated
hash. -/
def computeZobristHash (keys : ZKeys) (fen : String) : Option String :=
  (computeZobristHashInt keys fen).map toString

/-- JavaScript `rank.indexOf(close, i)` relative to the cursor: index of
the first occurrence of a character, `none` when absent (`-1`). -/
def idxOfChar (t : Char) : List Char → Option Nat
  | [] => none
  | c :: rest => if c = t then some 0 else (idxOfChar t rest).map (· + 1)

/-- JavaScript `s.split('|')` on the bracket-group content: split on the
pipe character, keeping empty alternatives. -/
def splitPipe : List Char → List (List Char)
  | [] => [[]]
  | c :: rest =>
    if c = '|' then [] :: splitPipe rest
    else
      match splitPipe rest with
      | [] => [[c]]
      | g :: gs => (c :: g) :: gs

/-- Fuelled body of the per-rank `while (i < rank.length)` loop shared by
`parsePatternRequirements` and the pattern branch of
`searchPositionPattern` (the two sources duplicate this loop verbatim;
only the shape of the emitted record differs, which the two wrappers
below reinstate).  A run-length digit advances the file cursor by its
value and emits nothing; `'['` with a matching `']'` emits one
constraint whose alternatives are the pipe-split group content and
advances the file cursor by one; an unterminated `'['` advances only the
string cursor (`i++`), emitting nothing and leaving the file cursor
unchanged; any other character emits a single-alternative constraint and
advances the file cursor by one.  Each step consumes at least one
character, so fuel equal to the rank length suffices. -/
def parseRankAltsF : Nat → List Char → Nat → List (Nat × List String)
  | 0, _, _ => []
  | _ + 1, [], _ => []
  | fuel + 1, c :: rest, file =>
    if isDigit18 c then parseRankAltsF fuel rest (file + digitVal c)
    else if c = '[' then
      match idxOfChar ']' rest with
      | some j =>
        (file, (splitPipe (rest.take j)).map (fun g => String.mk g)) ::
          parseRankAltsF fuel (rest.drop (j + 1)) (file + 1)
      | none => parseRankAltsF fuel rest file
    else (file, [String.mk [c]]) :: parseRankAltsF fuel rest (file + 1)

/-- The per-rank constraint scan, with fuel instantiated to the rank
length. -/
def parseRankAlts (l : List Char) (file : Nat) : List (Nat × List String) :=
  parseRankAltsF l.length l file

/-- A compiled constraint of `searchPositionPattern`'s pattern branch:
rank and file coordinates plus allowed piece alternatives. -/
structure RFReq where
  rank : Nat
  file : Nat
  allowedPieces : List String
  deriving DecidableEq

/-- A compiled constraint of `parsePatternRequirements`: a 0-63 square
number plus allowed piece alternatives. -/
structure SqReq where
  square : Nat
  allowedPieces : List String
  deriving DecidableEq

/-- The `pieceRequirements` list built inside `searchPositionPattern` for
`searchType === 'pattern'`: the shared rank scan over ranks 0-7 of the
target board, each constraint tagged with its rank and file. -/
def patternReqsRF (targetFen : String) : List RFReq :=
  (List.range 8).flatMap fun r =>
    (parseRankAlts ((boardRanksOf targetFen).getD r []) 0).map
      (fun fa => ⟨r, fa.1, fa.2⟩)

/-- `parsePatternRequirements(targetFen)`: the shared rank scan over ranks
0-7, each constraint tagged with `square = (7 - rank) * 8 + file`. -/
def parsePatternRequirements (targetFen : String) : List SqReq :=
  (List.range 8).flatMap fun r =>
    (parseRankAlts ((boardRanksOf targetFen).getD r []) 0).map
      (fun fa => ⟨(7 - r) * 8 + fa.1, fa.2⟩)

/-- The per-requirement scan of the predicate closure returned by
`searchPositionPattern` in pattern mode: walk the position's rank; a
run-length digit whose span covers the required file means the square is
empty and the requirement fails; a piece character on the required file
succeeds exactly when it is among the allowed alternatives; reaching the
end of the rank without touching the required file fails. -/
def scanReq : List Char → Nat → Nat → List String → Bool
  | [], _, _, _ => false
  | c :: rest, file, reqFile, allowed =>
    if isDigit18 c then
      if file ≤ reqFile ∧ reqFile < file + digitVal c then false
      else scanReq rest (file + digitVal c) reqFile allowed
    else
      if file = reqFile then allowed.contains (String.mk [c])
      else scanReq rest (file + 1) reqFile allowed

/-- The reference non-indexed predicate: the closure returned by
`searchPositionPattern(targetFen, 'pattern')` applied to a position's
FEN — every compiled requirement must pass its rank scan. -/
def patternPredicate (targetFen fen : String) : Bool :=
  (patternReqsRF targetFen).all fun req =>
    scanReq ((boardRanksOf fen).getD req.rank []) 0 req.file req.allowedPieces

/-- One item of the extended board-pattern grammar: a run-length skip, a
bare piece symbol, or a bracketed alternation group of piece symbols. -/
inductive PatItem where
  | skip (n : Nat)
  | sym (c : Char)
  | group (cs : List Char)
  deriving DecidableEq

/-- Pipe-join of group alternatives: the source text between `'['` and
`']'`. -/
def joinPipe : List Char → List Char
  | [] => []
  | [c] => [c]
  | c :: rest => c :: '|' :: joinPipe rest

/-- Render one grammar item back to pattern-encoding characters. -/
def renderItem : PatItem → List Char
  | .skip n => [Char.ofNat (48 + n)]
  | .sym c => [c]
  | .group cs => '[' :: (joinPipe cs ++ [']'])

/-- Render a rank of grammar items. -/
def renderItems (items : List PatItem) : List Char :=
  items.flatMap renderItem

/-- Grammar-side well-formedness of one item: skips are the digits 1-8, a
bare symbol is neither a digit nor an opening bracket, and a group is a
nonempty list of symbols none of which is the group terminator or the
alternative separator. -/
def itemOk : PatItem → Bool
  | .skip n => decide (1 ≤ n) && decide (n ≤ 8)
  | .sym c => !isDigit18 c && !(c = '[')
  | .group cs => !cs.isEmpty && cs.all (fun c => !(c = ']') && !(c = '|'))

/-- The constraint list the specification's compilation algorithm assigns
to a rank of grammar items: digits advance the file cursor by their
value and emit nothing, a bare symbol emits one single-alternative
constraint, a group emits one constraint listing every alternative, and
the cursor advances by exactly one square per symbol or group. -/
def compileItems : List PatItem → Nat → List (Nat × List String)
  | [], _ => []
  | .skip n :: rest, file => compileItems rest (file + n)
  | .sym c :: rest, file => (file, [String.mk [c]]) :: compileItems rest (file + 1)
  | .group cs :: rest, file =>
    (file, cs.map (fun c => String.mk [c])) :: compileItems rest (file + 1)

/-- A row of the `piece_locations` table: one fact "square holds piece in
position". -/
structure PieceLoc where
  pid : Nat
  square : Nat
  piece : String
  deriving DecidableEq

/-- A row of the `positions` table (fields the planner touches). -/
structure PosRow where
  id : Nat
  gameId : Nat
  moveNumber : Nat
  deriving DecidableEq

/-- The relational store the generated SQL runs against. -/
structure Store where
  positions : List PosRow
  games : List Nat
  pieceLocations : List PieceLoc

/-- Referential integrity assumed by the planner's `JOIN games`: every
position row names an existing game. -/
def storeWF (store : Store) : Prop :=
  ∀ p ∈ store.positions, p.gameId ∈ store.games

instance (store : Store) : Decidable (storeWF store) := by
  unfold storeWF; infer_instance

/-- The index rows `indexPosition` writes for one position: the decoded
occupied squares of its FEN, one row per square, the piece stored as its
one-character string. -/
def rowsOfPosition (pid : Nat) (fen : String) : List PieceLoc :=
  (extractPieceLocations fen).map (fun sc => ⟨pid, sc.1, String.mk [sc.2]⟩)

/-- Semantics of one per-constraint subquery of
`buildOptimizedPatternQuery`:
`SELECT position_id FROM piece_locations WHERE square = ? AND piece IN
(...)`. -/
def candidateIds (store : Store) (req : SqReq) : List Nat :=
  (store.pieceLocations.filter fun row =>
    row.square = req.square && decide (row.piece ∈ req.allowedPieces)).map
    (·.pid)

/-- Semantics of the `INNER JOIN ... ON position_id` chain that intersects
the per-constraint candidate sets: a position id survives exactly when
every constraint's subquery produced it. -/
def intersectIds (store : Store) : List SqReq → List Nat
  | [] => []
  | req :: rest =>
    rest.foldl
      (fun acc r => acc.filter (fun pid => decide (pid ∈ candidateIds store r)))
      (candidateIds store req)

/-- Insert into a descending-sorted list (the `ORDER BY game_id DESC` of
the paging subquery). -/
def insertDesc (x : Nat) : List Nat → List Nat
  | [] => [x]
  | y :: ys => if y ≤ x then x :: y :: ys else y :: insertDesc x ys

/-- Sort descending. -/
def sortDesc (l : List Nat) : List Nat :=
  l.foldr insertDesc []

/-- The position rows matching the pattern: `WHERE p.id IN (intersect)`. -/
def matchingPositions (store : Store) (reqs : List SqReq) : List PosRow :=
  store.positions.filter fun p => decide (p.id ∈ intersectIds store reqs)

/-- `SELECT DISTINCT p2.game_id ... ORDER BY p2.game_id DESC`: the
deduplicated game ids owning a matching position, in descending order. -/
def distinctGamesDesc (store : Store) (reqs : List SqReq) : List Nat :=
  sortDesc ((matchingPositions store reqs).map (·.gameId)).dedup

/-- `LIMIT limit OFFSET offset` applied to the distinct-game ordering:
the page of game ids. -/
def gamePageOf (store : Store) (reqs : List SqReq) (limit offset : Nat) : List Nat :=
  ((distinctGamesDesc store reqs).drop offset).take limit

/-- The compiled query plan returned by `buildOptimizedPatternQuery`: with
zero constraints the always-false plan (`SELECT 1 WHERE 0` paired with
`SELECT 0 as total`), otherwise the intersect-and-paginate plan over the
compiled constraints. -/
inductive PatternPlan where
  | noMatch : PatternPlan
  | intersect : List SqReq → PatternPlan
  deriving DecidableEq

/-- `buildOptimizedPatternQuery(fen, ...)`: compile the pattern and pick
the plan shape. -/
def buildOptimizedPatternQuery (fen : String) : PatternPlan :=
  let reqs := parsePatternRequirements fen
  if reqs.isEmpty then .noMatch else .intersect reqs

/-- Game page produced by the plan's paging subquery. -/
def runPlanGamePage : PatternPlan → Store → Nat → Nat → List Nat
  | .noMatch, _, _, _ => []
  | .intersect reqs, store, limit, offset => gamePageOf store reqs limit offset

/-- Result rows of the plan's outer query: matching positions restricted
to the games of the requested page, joined against `games`. -/
def runPlanRows : PatternPlan → Store → Nat → Nat → List PosRow
  | .noMatch, _, _, _ => []
  | .intersect reqs, store, limit, offset =>
    (matchingPositions store reqs).filter fun p =>
      decide (p.gameId ∈ gamePageOf store reqs limit offset) &&
        decide (p.gameId ∈ store.games)

/-- Total of the plan's count query: `COUNT(DISTINCT p.game_id)` over all
matching positions (zero for the always-false plan). -/
def runPlanCount : PatternPlan → Store → Nat
  | .noMatch, _ => 0
  | .intersect reqs, store =>
    ((matchingPositions store reqs).map (·.gameId)).dedup.length

/-- The shared imported/failed counters of the batch importer. -/
structure ImportCounters where
  imported : Nat
  failed : Nat
  deriving DecidableEq

/-- Counter effect of one `flush()` of `BatchImporter.importWorker` on a
pending batch.  `batch` records, per queued game, whether its
`insertGameInTx` succeeds; `beginOk` whether `db.conn.Begin()` succeeds;
`commitOk` whether `tx.Commit()` succeeds.  An empty batch is a no-op; a
failed begin counts the whole batch as failed; otherwise each game
increments imported or failed individually, and a failed commit then
adds the whole batch length to the failed counter on top of the
per-game increments. -/
def flushCounters (st : ImportCounters) (batch : List Bool)
    (beginOk commitOk : Bool) : ImportCounters :=
  if batch.length = 0 then st
  else if beginOk = false then ⟨st.imported, st.failed + batch.length⟩
  else
    let st2 := batch.foldl
      (fun s ok => if ok then ⟨s.imported + 1, s.failed⟩ else ⟨s.imported, s.failed + 1⟩)
      st
    if commitOk then st2 else ⟨st2.imported, st2.failed + batch.length⟩

/-- A decimal digit `0`-`9` (JavaScript regex `\d`, Go's digit check). -/
def isDigit09 (c : Char) : Bool :=
  '0' ≤ c && c ≤ '9'

/-- Whitespace as matched by JavaScript `\s` / Go `unicode.IsSpace` on the
inputs at hand. -/
def isWS (c : Char) : Bool :=
  c = ' ' || c = '\t' || c = '\n' || c = '\r'

/-- Global replace of `open[^close]*close` with the empty string (the
`\{[^}]*\}` and `\([^)]*\)` stages of `extractAllPositions`): at an
opening character, delete through the first closing character when one
exists, otherwise keep the unmatched opener and scan on.  Fuel equal to
the character count suffices since every step consumes at least one
character. -/
def stripDelimF (op cl : Char) : Nat → List Char → List Char
  | 0, l => l
  | _ + 1, [] => []
  | fuel + 1, c :: rest =>
    if c = op then
      match idxOfChar cl rest with
      | some j => stripDelimF op cl fuel (rest.drop (j + 1))
      | none => c :: stripDelimF op cl fuel rest
    else c :: stripDelimF op cl fuel rest

/-- Global replace of `\d+` followed by exactly `dots` dots with the empty
string (the `\d+\.\.\.` and `\d+\.` stages of `extractAllPositions`). -/
def stripNumDotsF (dots : Nat) : Nat → List Char → List Char
  | 0, l => l
  | _ + 1, [] => []
  | fuel + 1, c :: rest =>
    if isDigit09 c then
      let run := rest.takeWhile isDigit09
      let after := rest.drop run.length
      if after.take dots = List.replicate dots '.' then
        stripNumDotsF dots fuel (after.drop dots)
      else (c :: run) ++ stripNumDotsF dots fuel after
    else c :: stripNumDotsF dots fuel rest

/-- Global replace of `\s+` with a single space (the last regex stage of
`extractAllPositions`). -/
def collapseWS : List Char → List Char
  | [] => []
  | [c] => if isWS c then [' '] else [c]
  | c1 :: c2 :: rest =>
    if isWS c1 then
      if isWS c2 then collapseWS (c2 :: rest)
      else ' ' :: collapseWS (c2 :: rest)
    else c1 :: collapseWS (c2 :: rest)

/-- Trim leading and trailing whitespace (JavaScript `trim`, Go
`strings.TrimSpace`). -/
def trimWS (l : List Char) : List Char :=
  ((l.dropWhile isWS).reverse.dropWhile isWS).reverse

/-- The four game-result tokens both move-text cleaners discard. -/
def resultTokens : List (List Char) :=
  [['1', '-', '0'], ['0', '-', '1'], ['1', '/', '2', '-', '1', '/', '2'], ['*']]

/-- The move token list `extractAllPositions` derives from raw PGN text:
strip brace comments, strip parenthesised variations, strip move numbers
with dots, collapse whitespace, trim, split on spaces, and drop empty
and result tokens. -/
def jsMoveTokens (pgn : String) : List String :=
  let l0 := pgn.data
  let l1 := stripDelimF '{' '}' l0.length l0
  let l2 := stripDelimF '(' ')' l1.length l1
  let l3 := stripNumDotsF 3 l2.length l2
  let l4 := stripNumDotsF 1 l3.length l3
  let l5 := trimWS (collapseWS l4)
  ((splitOnChar ' ' l5).filter fun t =>
    !t.isEmpty && !resultTokens.contains t).map (fun t => String.mk t)

/-- One extracted position record of `extractAllPositions`. -/
structure JsPosition where
  fen : String
  moveNumber : Nat
  move : Option String
  deriving DecidableEq

/-- The replay loop of `extractAllPositions`: `step` is the external
`chess.move` collaborator, returning the next game state and the
normalised SAN on success and `none` when the move throws, which breaks
the loop.  `moveNumber` is the running ply counter starting at 1, pushed
as `Math.floor((moveNumber + 1) / 2)`. -/
def jsReplay {σ : Type} (step : σ → String → Option (σ × String))
    (fenOf : σ → String) : σ → Nat → List String → List JsPosition
  | _, _, [] => []
  | st, moveNumber, m :: rest =>
    match step st m with
    | some (st2, san) =>
      ⟨fenOf st2, (moveNumber + 1) / 2, some san⟩ ::
        jsReplay step fenOf st2 (moveNumber + 1) rest
    | none => []

/-- `extractAllPositions(pgn)`: the initial position is pushed before any
move is replayed, then the replay loop appends one record per
successfully replayed move. -/
def extractAllPositions {σ : Type} (step : σ → String → Option (σ × String))
    (fenOf : σ → String) (init : σ) (pgn : String) : List JsPosition :=
  ⟨fenOf init, 0, none⟩ :: jsReplay step fenOf init 1 (jsMoveTokens pgn)

/-- Go `cleanMoves`: replace the five special characters with spaces,
collapse double spaces to single spaces until none remain, and trim. -/
def collapseSpaces : List Char → List Char
  | [] => []
  | [c] => [c]
  | c1 :: c2 :: rest =>
    if c1 = ' ' && c2 = ' ' then collapseSpaces (c2 :: rest)
    else c1 :: collapseSpaces (c2 :: rest)

/-- Go `cleanMoves` composed as in the source. -/
def goCleanMoves (l : List Char) : List Char :=
  trimWS (collapseSpaces (l.map fun c =>
    if c ∈ ['{', '}', '(', ')', '$'] then ' ' else c))

/-- Go `isNumber`: nonempty and all decimal digits. -/
def isNumberTok (t : List Char) : Bool :=
  !t.isEmpty && t.all isDigit09

/-- The token loop of Go `parseMoveText`: stop at the first result token,
keep nonempty non-number tokens. -/
def goFilterMoves : List (List Char) → List (List Char)
  | [] => []
  | t :: rest =>
    if resultTokens.contains t then []
    else if !t.isEmpty && !isNumberTok t then t :: goFilterMoves rest
    else goFilterMoves rest

/-- Go `parseMoveText`: clean, replace dots with spaces, split on
whitespace runs (`strings.Fields`), then filter. -/
def goParseMoveText (moveText : String) : List String :=
  let l1 := goCleanMoves moveText.data
  let l2 := l1.map (fun c => if c = '.' then ' ' else c)
  (goFilterMoves ((splitOnPred isWS l2).filter fun t => !t.isEmpty)).map
    (fun t => String.mk t)

/-- One extracted position record of Go `ExtractPositions`. -/
structure GoPosition where
  moveNumber : Nat
  fen : String
  hash : String
  deriving DecidableEq

/-- The replay loop of Go `ExtractPositions`: a move the external
`game.MoveStr` collaborator rejects is skipped (`continue`) without
emitting a position; a replayed move emits its FEN and hash with move
number `i + 1` for loop index `i`. -/
def goReplay {σ : Type} (step : σ → String → Option σ) (fenOf : σ → String)
    (hashF : String → String) : σ → Nat → List String → List GoPosition
  | _, _, [] => []
  | st, i, m :: rest =>
    match step st m with
    | none => goReplay step fenOf hashF st (i + 1) rest
    | some st2 =>
      ⟨i + 1, fenOf st2, hashF (fenOf st2)⟩ ::
        goReplay step fenOf hashF st2 (i + 1) rest

/-- Go `ExtractPositions(moveText)`: the position list plus the returned
error, which is always `nil` — the function never reports a failure. -/
def goExtractPositions {σ : Type} (step : σ → String → Option σ)
    (fenOf : σ → String) (hashF : String → String) (init : σ)
    (moveText : String) : List GoPosition × Option String :=
  (goReplay step fenOf hashF init 0 (goParseMoveText moveText), none)

/-- A pattern encoding whose second rank lists nine pawns: its ninth
constraint is emitted at file 8, so its square number
`(7 - 1) * 8 + 8 = 56` wraps onto the first written rank. -/
def overlongPat : String := "8/ppppppppp/8/8/8/8/8/8"

/-- A well-formed board with a black pawn on a8 (square 56) and black
pawns across the seventh rank (squares 48-55). -/
def overlongFen : String := "p7/pppppppp/8/8/8/8/8/8 w - - 0 1"

/-- A one-position store indexed from `overlongFen`. -/
def overlongStore : Store := ⟨[⟨1, 1, 0⟩], [1], rowsOfPosition 1 overlongFen⟩

/-- A grammar-conforming pattern: three wildcards, a queen-or-rook
alternation, four wildcards on the first written rank; a king
constraint on the last. -/
def bracketPat : String := "3[Q|R]4/8/8/8/8/8/8/4K3"

/-- A board matching `bracketPat`. -/
def bracketFen : String := "3Q4/8/8/8/8/8/8/4K3 w - - 0 1"

/-- A one-position store indexed from `bracketFen`. -/
def bracketStore : Store := ⟨[⟨1, 1, 0⟩], [1], rowsOfPosition 1 bracketFen⟩

/-- A single-constraint pattern: a white king on a1. -/
def pagePat : String := "8/8/8/8/8/8/8/K7"

/-- A store with two matching positions in two different games. -/
def pageStore : Store :=
  ⟨[⟨1, 10, 0⟩, ⟨2, 20, 3⟩], [10, 20], [⟨1, 0, "K"⟩, ⟨2, 0, "K"⟩]⟩

/-- The all-wildcard pattern: eight empty ranks, zero constraints. -/
def emptyPat : String := "8/8/8/8/8/8/8/8"

/-- A pattern rank whose bracket group is never terminated. -/
def untermPat : String := "[P/8/8/8/8/8/8/8"

/-- A grammar rank: three wildcards, a king, a queen-or-rook group,
three wildcards. -/
def demoItems : List PatItem := [.skip 3, .sym 'K', .group ['Q', 'R'], .skip 3]

/-- Move text no replay collaborator can turn into a move. -/
def junkMoves : String := "Zz1"

/-- One white pawn and ten white bishops. -/
def matFen1 : String := "BBBBBBBB/BB6/8/8/8/8/P7/8 w - - 0 1"

/-- Ten white pawns and one white knight. -/
def matFen2 : String := "PPPPPPPP/PP6/N7/8/8/8/8/8 w - - 0 1"

/-- A lone white king on a8. -/
def kingFen : String := "K7/8/8/8/8/8/8/8 w - - 0 1"

/-- The standard initial position. -/
def startFen : String := "rnbqkbnr/pppppppp/8/8/8/8/PPPPPPPP/RNBQKBNR w KQkq - 0 1"

/-- Rejoin split groups with the separator; inverse of `splitOnChar`. -/
def joinSep (sep : Char) : List (List Char) → List Char
  | [] => []
  | [g] => g
  | g :: gs => g ++ sep :: joinSep sep gs

theorem splitOnPred_ne_nil (p : Char → Bool) (l : List Char) :
    splitOnPred p l ≠ [] := by
  cases l with
  | nil => simp [splitOnPred]
  | cons c rest =>
    simp only [splitOnPred]
    split
    · simp
    · cases h : splitOnPred p rest <;> simp

theorem joinSep_splitOnChar (sep : Char) (l : List Char) :
    joinSep sep (splitOnChar sep l) = l := by
  induction l with
  | nil => simp [splitOnChar, splitOnPred, joinSep]
  | cons c rest ih =>
    simp only [splitOnChar, splitOnPred] at ih ⊢
    by_cases hc : c = sep
    · rw [if_pos (by simpa using hc)]
      cases h : splitOnPred (fun x => decide (x = sep)) rest with
      | nil => exact absurd h (splitOnPred_ne_nil _ _)
      | cons g gs =>
        rw [h] at ih
        simp only [joinSep]
        cases gs <;> simp_all [joinSep]
    · rw [if_neg (by simpa using hc)]
      cases h : splitOnPred (fun x => decide (x = sep)) rest with
      | nil => exact absurd h (splitOnPred_ne_nil _ _)
      | cons g gs =>
        rw [h] at ih
        cases gs with
        | nil => simpa [joinSep] using ih
        | cons g2 gs2 => simpa [joinSep] using ih

theorem mem_splitOnPred_no_sep (p : Char → Bool) (l : List Char) :
    ∀ g ∈ splitOnPred p l, ∀ c ∈ g, p c = false := by
  induction l with
  | nil => intro g hg c hc; simp [splitOnPred] at hg; subst hg; simp at hc
  | cons x rest ih =>
    intro g hg c hc
    simp only [splitOnPred] at hg
    by_cases hx : p x
    · rw [if_pos hx] at hg
      rcases List.mem_cons.mp hg with h | h
      · subst h; simp at hc
      · exact ih g h c hc
    · rw [if_neg hx] at hg
      cases h : splitOnPred p rest with
      | nil => exact absurd h (splitOnPred_ne_nil _ _)
      | cons g0 gs =>
        rw [h] at hg
        rcases List.mem_cons.mp hg with hgg | hgg
        · subst hgg
          rcases List.mem_cons.mp hc with hcc | hcc
          · subst hcc; simpa using hx
          · exact ih g0 (h ▸ List.mem_cons_self _ _) c hcc
        · exact ih g (h ▸ List.mem_cons_of_mem _ hgg) c hc

theorem rankWidth_append (a b : List Char) :
    rankWidth (a ++ b) = rankWidth a + rankWidth b := by
  simp [rankWidth]

theorem rankWidth_joinSep (gs : List (List Char)) :
    rankWidth (joinSep '/' gs) = (gs.map rankWidth).sum := by
  induction gs with
  | nil => simp [joinSep, rankWidth]
  | cons g rest ih =>
    cases rest with
    | nil => simp [joinSep, rankWidth]
    | cons g2 gs2 =>
      simp only [joinSep] at ih ⊢
      rw [rankWidth_append]
      have hslash : rankWidth ('/' :: joinSep '/' (g2 :: gs2)) =
          rankWidth (joinSep '/' (g2 :: gs2)) := by
        simp [rankWidth, charWidth, isDigit18, digitVal]
      rw [hslash, ih]
      simp

theorem mem_rankPieces_le {fc : Nat × Char} :
    ∀ {l : List Char} {f0 : Nat}, fc ∈ rankPieces l f0 → f0 ≤ fc.1 := by
  intro l
  induction l with
  | nil => intro f0 h; simp [rankPieces] at h
  | cons c rest ih =>
    intro f0 h
    simp only [rankPieces] at h
    split at h
    · exact le_trans (Nat.le_add_right _ _) (ih h)
    · rcases List.mem_cons.mp h with h1 | h1
      · subst h1; exact le_refl _
      · exact le_trans (Nat.le_add_right _ 1) (ih h1)

theorem mem_rankPieces_lt {fc : Nat × Char} :
    ∀ {l : List Char} {f0 : Nat}, '/' ∉ l → fc ∈ rankPieces l f0 →
      fc.1 < f0 + rankWidth l := by
  intro l
  induction l with
  | nil => intro f0 _ h; simp [rankPieces] at h
  | cons c rest ih =>
    intro f0 hsl h
    have hc : c ≠ '/' := fun hq => hsl (hq ▸ List.mem_cons_self _ _)
    have hrest : '/' ∉ rest := fun hq => hsl (List.mem_cons_of_mem _ hq)
    simp only [rankPieces] at h
    by_cases hd : isDigit18 c
    · rw [if_pos hd] at h
      have := ih hrest h
      have hw : rankWidth (c :: rest) = digitVal c + rankWidth rest := by
        simp [rankWidth, charWidth, hd]
      omega
    · rw [if_neg hd] at h
      have hw : rankWidth (c :: rest) = 1 + rankWidth rest := by
        simp [rankWidth, charWidth, hd, hc]
      rcases List.mem_cons.mp h with h1 | h1
      · subst h1; simp only []; omega
      · have := ih hrest h1
        omega

theorem scanReq_iff (allowed : List String) :
    ∀ (l : List Char) (file reqFile : Nat),
      scanReq l file reqFile allowed = true ↔
        ∃ c, (reqFile, c) ∈ rankPieces l file ∧
          allowed.contains (String.mk [c]) = true := by
  intro l
  induction l with
  | nil => intro file reqFile; simp [scanReq, rankPieces]
  | cons c rest ih =>
    intro file reqFile
    by_cases hd : isDigit18 c
    · simp only [scanReq, rankPieces, if_pos hd]
      by_cases hcov : file ≤ reqFile ∧ reqFile < file + digitVal c
      · rw [if_pos hcov]
        constructor
        · intro h; exact absurd h (by simp)
        · rintro ⟨x, hx, _⟩
          have := mem_rankPieces_le hx
          omega
      · rw [if_neg hcov]
        exact ih (file + digitVal c) reqFile
    · simp only [scanReq, rankPieces, if_neg hd]
      by_cases hf : file = reqFile
      · rw [if_pos hf]
        constructor
        · intro h
          exact ⟨c, by rw [← hf]; exact List.mem_cons_self _ _, h⟩
        · rintro ⟨x, hx, hmem⟩
          rcases List.mem_cons.mp hx with h1 | h1
          · have : x = c := by
              have := congrArg Prod.snd h1; simpa using this
            exact this ▸ hmem
          · have := mem_rankPieces_le h1
            omega
      · rw [if_neg hf]
        rw [ih (file + 1) reqFile]
        constructor
        · rintro ⟨x, hx, hmem⟩; exact ⟨x, List.mem_cons_of_mem _ hx, hmem⟩
        · rintro ⟨x, hx, hmem⟩
          rcases List.mem_cons.mp hx with h1 | h1
          · exfalso
            have := congrArg Prod.fst h1
            simp at this
            exact hf this.symm
          · exact ⟨x, h1, hmem⟩

theorem mem_extractPieceLocations {fen : String} {sc : Nat × Char} :
    sc ∈ extractPieceLocations fen ↔
      ∃ r, r < 8 ∧ ∃ fc ∈ rankPieces ((boardRanksOf fen).getD r []) 0,
        sc = ((7 - r) * 8 + fc.1, fc.2) := by
  simp only [extractPieceLocations, List.mem_flatMap, List.mem_range,
    List.mem_map]
  constructor
  · rintro ⟨r, hr, fc, hfc, heq⟩
    exact ⟨r, hr, fc, hfc, heq.symm⟩
  · rintro ⟨r, hr, fc, hfc, heq⟩
    exact ⟨r, hr, fc, hfc, heq.symm⟩

theorem rankPieces_file_lt_eight {fen : String} (hwf : wellFormedFEN fen)
    {r : Nat} (hr : r < 8) {fc : Nat × Char}
    (hfc : fc ∈ rankPieces ((boardRanksOf fen).getD r []) 0) : fc.1 < 8 := by
  obtain ⟨hlen, hranks, -⟩ := hwf
  have hmem : (boardRanksOf fen).getD r [] ∈ boardRanksOf fen := by
    rw [List.getD_eq_getElem?_getD, List.getElem?_eq_getElem (by omega)]
    exact List.getElem_mem _
  have hsl : '/' ∉ (boardRanksOf fen).getD r [] := by
    intro hq
    have := mem_splitOnPred_no_sep _ _ _ hmem '/' hq
    simp at this
  have := mem_rankPieces_lt hsl hfc
  have hw := hranks _ hmem
  omega

theorem mem_candidateIds {store : Store} {req : SqReq} {pid : Nat} :
    pid ∈ candidateIds store req ↔
      ∃ row ∈ store.pieceLocations,
        row.pid = pid ∧ row.square = req.square ∧
          row.piece ∈ req.allowedPieces := by
  simp only [candidateIds, List.mem_map, List.mem_filter, Bool.and_eq_true,
    decide_eq_true_eq]
  constructor
  · rintro ⟨row, ⟨hmem, hsq, hpc⟩, hpid⟩
    exact ⟨row, hmem, hpid, hsq, hpc⟩
  · rintro ⟨row, hmem, hpid, hsq, hpc⟩
    exact ⟨row, ⟨hmem, hsq, hpc⟩, hpid⟩

theorem mem_filterCandidates_foldl (store : Store) (rs : List SqReq) :
    ∀ (acc : List Nat) (pid : Nat),
      pid ∈ rs.foldl
        (fun acc r => acc.filter fun x => decide (x ∈ candidateIds store r))
        acc ↔
      pid ∈ acc ∧ ∀ r ∈ rs, pid ∈ candidateIds store r := by
  induction rs with
  | nil => intro acc pid; simp
  | cons r rest ih =>
    intro acc pid
    simp only [List.foldl_cons, ih, List.mem_filter, decide_eq_true_eq,
      List.mem_cons]
    constructor
    · rintro ⟨⟨ha, hr⟩, hrest⟩
      exact ⟨ha, fun q hq => hq.elim (fun he => he ▸ hr) (hrest q)⟩
    · rintro ⟨ha, hall⟩
      exact ⟨⟨ha, hall r (Or.inl rfl)⟩, fun q hq => hall q (Or.inr hq)⟩

theorem mem_intersectIds {store : Store} {reqs : List SqReq}
    (hne : reqs ≠ []) {pid : Nat} :
    pid ∈ intersectIds store reqs ↔
      ∀ r ∈ reqs, pid ∈ candidateIds store r := by
  cases reqs with
  | nil => exact absurd rfl hne
  | cons r rest =>
    simp only [intersectIds, mem_filterCandidates_foldl, List.mem_cons]
    constructor
    · rintro ⟨hr, hrest⟩
      exact fun q hq => hq.elim (fun he => he ▸ hr) (hrest q)
    · intro hall
      exact ⟨hall r (Or.inl rfl), fun q hq => hall q (Or.inr hq)⟩

theorem mem_rows_of_filter_eq {store : Store} {pid : Nat} {fen : String}
    (hrows : store.pieceLocations.filter
      (fun row => decide (row.pid = pid)) = rowsOfPosition pid fen)
    (row : PieceLoc) :
    (row ∈ store.pieceLocations ∧ row.pid = pid) ↔
      row ∈ rowsOfPosition pid fen := by
  rw [← hrows]
  simp [List.mem_filter]

theorem candidate_iff_scan
    (pat fen : String) (store : Store) (pid : Nat)
    (hwf : wellFormedFEN fen)
    (hfiles : ∀ req ∈ patternReqsRF pat, req.file < 8)
    (hrows : store.pieceLocations.filter (fun row => decide (row.pid = pid)) =
      rowsOfPosition pid fen)
    (r : Nat) (hr : r < 8) (fa : Nat × List String)
    (hfa : fa ∈ parseRankAlts ((boardRanksOf pat).getD r []) 0) :
    pid ∈ candidateIds store ⟨(7 - r) * 8 + fa.1, fa.2⟩ ↔
      scanReq ((boardRanksOf fen).getD r []) 0 fa.1 fa.2 = true := by
  have hrf : (⟨r, fa.1, fa.2⟩ : RFReq) ∈ patternReqsRF pat := by
    unfold patternReqsRF
    simp only [List.mem_flatMap, List.mem_range, List.mem_map]
    exact ⟨r, hr, fa, hfa, rfl⟩
  have hfile : fa.1 < 8 := hfiles _ hrf
  rw [mem_candidateIds, scanReq_iff]
  constructor
  · rintro ⟨row, hmem, hpid, hsq, hpc⟩
    have hrow : row ∈ rowsOfPosition pid fen :=
      (mem_rows_of_filter_eq hrows row).mp ⟨hmem, hpid⟩
    obtain ⟨sc, hsc, heq⟩ := List.mem_map.mp hrow
    obtain ⟨r2, hr2, fc, hfc, hsceq⟩ := mem_extractPieceLocations.mp hsc
    have hfc8 : fc.1 < 8 := rankPieces_file_lt_eight hwf hr2 hfc
    have hsq2 : sc.1 = (7 - r) * 8 + fa.1 := by
      have := congrArg PieceLoc.square heq; simp at this; rw [this]; exact hsq
    have hpcs : sc.2 = fc.2 := by rw [hsceq]
    have hsq3 : (7 - r2) * 8 + fc.1 = (7 - r) * 8 + fa.1 := by
      rw [hsceq] at hsq2; simpa using hsq2
    have hrr : r2 = r ∧ fc.1 = fa.1 := by omega
    refine ⟨fc.2, ?_, ?_⟩
    · rw [← hrr.1, ← hrr.2]
      exact (by simpa using hfc :
        (fc.1, fc.2) ∈ rankPieces ((boardRanksOf fen).getD r2 []) 0)
    · have hpiece : row.piece = String.mk [sc.2] := by
        have := congrArg PieceLoc.piece heq; simp at this; exact this.symm
      rw [hpiece, hpcs] at hpc
      simpa using hpc
  · rintro ⟨c, hcmem, hcont⟩
    have hsc : ((7 - r) * 8 + fa.1, c) ∈ extractPieceLocations fen :=
      mem_extractPieceLocations.mpr ⟨r, hr, (fa.1, c), hcmem, rfl⟩
    have hrow : (⟨pid, (7 - r) * 8 + fa.1, String.mk [c]⟩ : PieceLoc) ∈
        rowsOfPosition pid fen := List.mem_map.mpr ⟨_, hsc, rfl⟩
    have hmem := (mem_rows_of_filter_eq hrows _).mpr hrow
    exact ⟨_, hmem.1, rfl, rfl, by simpa using hcont⟩

/-- C1 (amended): for every pattern that compiles to at least one
constraint and whose constraints all fall on the board (the per-rank
file cursor stays below 8 at every emitted constraint), and for every
well-formed board FEN, the indexed query plan and the reference
non-indexed predicate agree: a position whose index rows are exactly
the rows decoded from its FEN survives the per-constraint candidate
intersection of `buildOptimizedPatternQuery` if and only if the
`searchPositionPattern` pattern predicate accepts the FEN — all
constraints must hold simultaneously and inside one constraint any
listed piece suffices.  (The unamended claim fails when a pattern rank
spans more than eight files; see the counterexample.) -/
theorem pattern_plan_refines_predicate
    (pat fen : String) (store : Store) (pid : Nat)
    (hwf : wellFormedFEN fen)
    (hreqs : parsePatternRequirements pat ≠ [])
    (hfiles : ∀ req ∈ patternReqsRF pat, req.file < 8)
    (hrows : store.pieceLocations.filter (fun row => decide (row.pid = pid)) =
      rowsOfPosition pid fen) :
    pid ∈ intersectIds store (parsePatternRequirements pat) ↔
      patternPredicate pat fen = true := by
  rw [mem_intersectIds hreqs]
  unfold patternPredicate
  rw [List.all_eq_true]
  constructor
  · intro hall req hreq
    obtain ⟨r, hr, fa, hfa, heq⟩ :
        ∃ r, r < 8 ∧ ∃ fa ∈ parseRankAlts ((boardRanksOf pat).getD r []) 0,
          (⟨r, fa.1, fa.2⟩ : RFReq) = req := by
      simpa [patternReqsRF, List.mem_flatMap, List.mem_range, List.mem_map]
        using hreq
    subst heq
    show scanReq ((boardRanksOf fen).getD r []) 0 fa.1 fa.2 = true
    rw [← candidate_iff_scan pat fen store pid hwf hfiles hrows r hr fa hfa]
    apply hall
    unfold parsePatternRequirements
    simp only [List.mem_flatMap, List.mem_range, List.mem_map]
    exact ⟨r, hr, fa, hfa, rfl⟩
  · intro hall req hreq
    obtain ⟨r, hr, fa, hfa, heq⟩ :
        ∃ r, r < 8 ∧ ∃ fa ∈ parseRankAlts ((boardRanksOf pat).getD r []) 0,
          (⟨(7 - r) * 8 + fa.1, fa.2⟩ : SqReq) = req := by
      simpa [parsePatternRequirements, List.mem_flatMap, List.mem_range,
        List.mem_map] using hreq
    subst heq
    rw [candidate_iff_scan pat fen store pid hwf hfiles hrows r hr fa hfa]
    have := hall ⟨r, fa.1, fa.2⟩ (by
      unfold patternReqsRF
      simp only [List.mem_flatMap, List.mem_range, List.mem_map]
      exact ⟨r, hr, fa, hfa, rfl⟩)
    simpa using this

/-- C1 counterexample: the claim as stated — agreement for every pattern
with at least one constraint and every well-formed board FEN — fails on
the nine-pawn rank pattern `overlongPat` against the well-formed board
`overlongFen`: position 1 of `overlongStore`, indexed exactly from that
FEN, survives the candidate intersection, yet the reference predicate
rejects the FEN. -/
theorem pattern_plan_predicate_disagree :
    wellFormedFEN overlongFen ∧
    parsePatternRequirements overlongPat ≠ [] ∧
    overlongStore.pieceLocations.filter (fun row => decide (row.pid = 1)) =
      rowsOfPosition 1 overlongFen ∧
    1 ∈ intersectIds overlongStore (parsePatternRequirements overlongPat) ∧
    patternPredicate overlongPat overlongFen = false := by
  refine ⟨by decide, by decide, by decide, by decide, by decide⟩

/-- C1 witness: the amended equivalence instantiated on the bracket
pattern `bracketPat`, the matching board `bracketFen`, and the
one-position store indexed from it. -/
theorem pattern_plan_refines_predicate_witness :
    wellFormedFEN bracketFen ∧
    parsePatternRequirements bracketPat ≠ [] ∧
    (∀ req ∈ patternReqsRF bracketPat, req.file < 8) ∧
    patternPredicate bracketPat bracketFen = true ∧
    (1 ∈ intersectIds bracketStore (parsePatternRequirements bracketPat) ↔
      patternPredicate bracketPat bracketFen = true) :=
  ⟨by decide, by decide, by decide, by decide,
    pattern_plan_refines_predicate bracketPat bracketFen bracketStore 1
      (by decide) (by decide) (by decide) (by decide)⟩

theorem insertDesc_perm (x : Nat) (l : List Nat) :
    List.Perm (insertDesc x l) (x :: l) := by
  induction l with
  | nil => simp [insertDesc]
  | cons y ys ih =>
    simp only [insertDesc]
    split
    · exact List.Perm.refl _
    · exact (List.Perm.cons y ih).trans (List.Perm.swap x y ys)

theorem sortDesc_perm (l : List Nat) : List.Perm (sortDesc l) l := by
  induction l with
  | nil => simp [sortDesc]
  | cons x xs ih =>
    have : sortDesc (x :: xs) = insertDesc x (sortDesc xs) := rfl
    rw [this]
    exact (insertDesc_perm x (sortDesc xs)).trans (List.Perm.cons x ih)

theorem insertDesc_sorted {x : Nat} {l : List Nat}
    (h : List.Pairwise (fun a b => b ≤ a) l) :
    List.Pairwise (fun a b => b ≤ a) (insertDesc x l) := by
  induction l with
  | nil => simp [insertDesc]
  | cons y ys ih =>
    have hy := List.pairwise_cons.mp h
    simp only [insertDesc]
    by_cases hxy : y ≤ x
    · rw [if_pos hxy]
      refine List.pairwise_cons.mpr ⟨?_, h⟩
      intro b hb
      rcases List.mem_cons.mp hb with h1 | h1
      · omega
      · have := hy.1 b h1; omega
    · rw [if_neg hxy]
      refine List.pairwise_cons.mpr ⟨?_, ih hy.2⟩
      intro b hb
      have hb2 : b = x ∨ b ∈ ys := by
        have := (insertDesc_perm x ys).mem_iff.mp hb
        simpa using this
      rcases hb2 with h1 | h1
      · subst h1; omega
      · exact hy.1 b h1

theorem sortDesc_sorted (l : List Nat) :
    List.Pairwise (fun a b => b ≤ a) (sortDesc l) := by
  induction l with
  | nil => simp [sortDesc]
  | cons x xs ih => exact insertDesc_sorted ih

theorem sortDesc_nodup {l : List Nat} (h : l.Nodup) : (sortDesc l).Nodup :=
  (sortDesc_perm l).nodup_iff.mpr h

theorem slices_concat (P : Nat) :
    ∀ (K : Nat) (L : List Nat), L.length ≤ K * P →
      (List.range K).flatMap (fun i => (L.drop (i * P)).take P) = L := by
  intro K
  induction K with
  | zero =>
    intro L h
    simp at h
    simp [h]
  | succ K ih =>
    intro L h
    rw [List.range_succ_eq_map]
    simp only [List.flatMap_cons, Nat.zero_mul, List.drop_zero,
      List.flatMap_map]
    have hstep : ∀ i : Nat, (L.drop (Nat.succ i * P)).take P =
        ((L.drop P).drop (i * P)).take P := by
      intro i
      rw [List.drop_drop]
      congr 1
      rw [Nat.succ_mul, Nat.add_comm]
    have hrw : (List.range K).flatMap
          (fun i => (L.drop (Nat.succ i * P)).take P) =
        (List.range K).flatMap (fun i => (((L.drop P).drop (i * P)).take P)) :=
      List.flatMap_congr (fun i _ => hstep i)
    calc L.take P ++ (List.range K).flatMap
          (fun i => (L.drop (Nat.succ i * P)).take P)
        = L.take P ++ (List.range K).flatMap
          (fun i => (((L.drop P).drop (i * P)).take P)) := by rw [hrw]
      _ = L.take P ++ L.drop P := by
          rw [ih (L.drop P) (by
            have h2 : L.length ≤ K * P + P := by rw [Nat.succ_mul] at h; exact h
            simp only [List.length_drop]
            omega)]
      _ = L := List.take_append_drop P L

/-- C2: for every pattern with at least one constraint and every store
with referential integrity, the plan built by
`buildOptimizedPatternQuery` paginates by distinct games: the
deduplicated descending list of game ids owning a matching position is
computed first; each page is the `LIMIT/OFFSET` slice of that list, so
the concatenation of all pages equals the full unpaginated
distinct-game result — no duplicates (the list is nodup), no gaps, in
descending game order — and the outer query then fetches exactly the
matching positions whose game lies in the requested page, so no game is
truncated mid-way. -/
theorem pattern_pagination_by_distinct_games
    (fen : String) (store : Store) (P : Nat)
    (hreqs : parsePatternRequirements fen ≠ [])
    (hwf : storeWF store) :
    (∀ K, (distinctGamesDesc store (parsePatternRequirements fen)).length ≤ K * P →
      (List.range K).flatMap
        (fun i =>
          runPlanGamePage (buildOptimizedPatternQuery fen) store P (i * P)) =
        distinctGamesDesc store (parsePatternRequirements fen)) ∧
    (distinctGamesDesc store (parsePatternRequirements fen)).Nodup ∧
    List.Pairwise (fun a b => b ≤ a)
      (distinctGamesDesc store (parsePatternRequirements fen)) ∧
    (∀ offset p,
      p ∈ runPlanRows (buildOptimizedPatternQuery fen) store P offset ↔
        p ∈ matchingPositions store (parsePatternRequirements fen) ∧
          p.gameId ∈
            runPlanGamePage (buildOptimizedPatternQuery fen) store P offset) := by
  have hplan : buildOptimizedPatternQuery fen =
      .intersect (parsePatternRequirements fen) := by
    unfold buildOptimizedPatternQuery
    rw [if_neg (by simpa [List.isEmpty_iff] using hreqs)]
  refine ⟨?_, ?_, ?_, ?_⟩
  · intro K hK
    rw [hplan]
    show (List.range K).flatMap
        (fun i =>
          ((distinctGamesDesc store (parsePatternRequirements fen)).drop
            (i * P)).take P) = _
    exact slices_concat P K _ hK
  · exact sortDesc_nodup (List.nodup_dedup _)
  · exact sortDesc_sorted _
  · intro offset p
    rw [hplan]
    show p ∈ (matchingPositions store (parsePatternRequirements fen)).filter _ ↔ _
    simp only [List.mem_filter, Bool.and_eq_true, decide_eq_true_eq]
    constructor
    · rintro ⟨hm, hpage, _⟩
      exact ⟨hm, hpage⟩
    · rintro ⟨hm, hpage⟩
      refine ⟨hm, hpage, ?_⟩
      have hp : p ∈ store.positions := (List.mem_filter.mp hm).1
      exact hwf p hp

/-- C2 witness: the pagination theorem instantiated on a two-game store
with page size one: the two single-game pages concatenate to the full
descending distinct-game list. -/
theorem pattern_pagination_by_distinct_games_witness :
    parsePatternRequirements pagePat ≠ [] ∧
    storeWF pageStore ∧
    (List.range 2).flatMap
      (fun i =>
        runPlanGamePage (buildOptimizedPatternQuery pagePat) pageStore 1
          (i * 1)) =
      distinctGamesDesc pageStore (parsePatternRequirements pagePat) :=
  ⟨by decide, by decide, by
    have h := pattern_pagination_by_distinct_games pagePat pageStore 1
      (by decide) (by decide)
    exact h.1 2 (by decide)⟩

theorem idxOfChar_eq_none {t : Char} :
    ∀ {l : List Char}, t ∉ l → idxOfChar t l = none := by
  intro l
  induction l with
  | nil => intro _; rfl
  | cons c rest ih =>
    intro h
    simp only [idxOfChar]
    rw [if_neg (by intro he; exact h (he ▸ List.mem_cons_self _ _))]
    rw [ih (fun hm => h (List.mem_cons_of_mem _ hm))]
    rfl

/-- C3 (code bug): the fingerprint key table is not fixed for the lifetime
of an index.  `generateZobristKeys` is re-run from `Math.random()` at
every module load, so two process runs whose draw streams differ — here
the streams that always draw 1 and always draw 2 — give the same
position (`kingFen`, well formed) different key-table entries and
different content fingerprints, invalidating fingerprints stored by the
previous run. -/
theorem zobrist_fingerprint_unstable_across_runs :
    (generateZobristKeys (fun _ => 1)).pieceKey 0 'K' ≠
      (generateZobristKeys (fun _ => 2)).pieceKey 0 'K' ∧
    computeZobristHash (generateZobristKeys (fun _ => 1)) kingFen ≠
      computeZobristHash (generateZobristKeys (fun _ => 2)) kingFen := by
  refine ⟨by decide, by decide⟩

/-- C4 (code bug): `getMaterialSignature` concatenates variable-width
decimal counts with no per-field delimiter, so it is not collision-safe
for counts up to 10: one pawn with ten bishops and ten pawns with one
knight — all per-piece counts at most 10 — produce the identical
signature even though their count vectors differ. -/
theorem material_signature_collision :
    getMaterialSignature matFen1 = getMaterialSignature matFen2 ∧
    pieceCount matFen1 'P' = 1 ∧ pieceCount matFen1 'B' = 10 ∧
    pieceCount matFen2 'P' = 10 ∧ pieceCount matFen2 'N' = 1 := by
  refine ⟨by decide, by decide, by decide, by decide, by decide⟩

/-- C6: a pattern that compiles to zero constraints takes the explicit
empty branch of `buildOptimizedPatternQuery`, and both plan outputs
agree on "matches nothing": the result query (`SELECT 1 WHERE 0`)
returns no rows on every store and the count query
(`SELECT 0 as total`) reports zero distinct games. -/
theorem empty_pattern_matches_nothing
    (fen : String) (h : parsePatternRequirements fen = []) :
    ∀ (store : Store) (limit offset : Nat),
      runPlanRows (buildOptimizedPatternQuery fen) store limit offset = [] ∧
      runPlanCount (buildOptimizedPatternQuery fen) store = 0 := by
  intro store limit offset
  have hplan : buildOptimizedPatternQuery fen = .noMatch := by
    unfold buildOptimizedPatternQuery
    rw [if_pos (by simp [h])]
  rw [hplan]
  exact ⟨rfl, rfl⟩

/-- C6 witness: the empty-pattern policy evaluated on the all-wildcard
pattern against the two-game store. -/
theorem empty_pattern_matches_nothing_witness :
    parsePatternRequirements emptyPat = [] ∧
    runPlanRows (buildOptimizedPatternQuery emptyPat) pageStore 50 0 = [] ∧
    runPlanCount (buildOptimizedPatternQuery emptyPat) pageStore = 0 :=
  ⟨by decide,
    (empty_pattern_matches_nothing emptyPat (by decide) pageStore 50 0).1,
    (empty_pattern_matches_nothing emptyPat (by decide) pageStore 50 0).2⟩

/-- C7 counterexample: pattern compilation does not fail on a malformed
bracket group.  On `untermPat`, whose first rank is the unterminated
group `[P`, `parsePatternRequirements` raises nothing and returns a
successful constraint list — it silently skips the `[` and then
compiles the `P` as a bare symbol at file 0 (square 56).  No
`PatternSyntaxError` (or any other error path) exists in the code. -/
theorem unterminated_bracket_no_error :
    parsePatternRequirements untermPat = [⟨56, ["P"]⟩] := by decide

/-- C7 (amended): an unterminated `[` is silently skipped rather than
rejected: the string cursor advances past the `[` alone (`i++`), no
constraint is emitted for it, the file cursor is unchanged, and the
remaining characters are compiled as if the `[` were absent; no error
is ever raised. -/
theorem unterminated_bracket_skipped (rest : List Char) (file : Nat)
    (hnone : ']' ∉ rest) :
    parseRankAlts ('[' :: rest) file = parseRankAlts rest file := by
  show parseRankAltsF (rest.length + 1) ('[' :: rest) file =
    parseRankAltsF rest.length rest file
  simp only [parseRankAltsF]
  rw [if_neg (by decide), if_pos trivial, idxOfChar_eq_none hnone]

/-- C7 witness: the skip behaviour instantiated on the rank `[P`. -/
theorem unterminated_bracket_skipped_witness :
    ']' ∉ ['P'] ∧ parseRankAlts ('[' :: ['P']) 0 = parseRankAlts ['P'] 0 :=
  ⟨by decide, unterminated_bracket_skipped ['P'] 0 (by decide)⟩

/-- C8 (code bug): counter accounting of one `flush()` on a one-game
batch.  A fully successful flush increments the counters by exactly the
batch size (imported 1, failed 0), and a failed `Begin` counts the
whole batch as failed (imported 0, failed 1) — but when the per-game
insert succeeds and `tx.Commit()` then fails, the flush leaves
imported = 1 and failed = 1: the counters grow by twice the batch size,
and a game whose transaction never committed stays counted as imported,
so `imported + failed ≤ N` is violated. -/
theorem flush_commit_failure_double_counts :
    flushCounters ⟨0, 0⟩ [true] true true = ⟨1, 0⟩ ∧
    flushCounters ⟨0, 0⟩ [true] false true = ⟨0, 1⟩ ∧
    flushCounters ⟨0, 0⟩ [true] true false = ⟨1, 1⟩ := by
  refine ⟨by decide, by decide, by decide⟩

theorem goReplay_all_fail {σ : Type} (step : σ → String → Option σ)
    (fenOf : σ → String) (hashF : String → String)
    (hfail : ∀ st m, step st m = none) :
    ∀ (ms : List String) (st : σ) (i : Nat),
      goReplay step fenOf hashF st i ms = [] := by
  intro ms
  induction ms with
  | nil => intro st i; rfl
  | cons m rest ih =>
    intro st i
    simp only [goReplay, hfail]
    exact ih st (i + 1)

/-- C9 counterexample: the claim fails on both decode stages, shown on
the unreplayable move text `junkMoves` with a replay collaborator that
rejects every move.  The JavaScript `extractAllPositions` yields one
position, not zero — the initial position is pushed before any move is
replayed — and the Go `ExtractPositions` does yield zero positions but
returns a nil error, so the failure is never reported. -/
theorem malformed_game_decode_counterexample :
    (extractAllPositions (fun (_ : Unit) (_ : String) => none)
      (fun _ => startFen) () junkMoves).length = 1 ∧
    goExtractPositions (fun (_ : Unit) (_ : String) => none)
      (fun _ => startFen) (fun s => s) () junkMoves = ([], none) := by
  refine ⟨by decide, by decide⟩

/-- C9 (amended): a malformed game record is not fatal but is also not
reported: for every replay collaborator and move text, Go
`ExtractPositions` returns a nil error, and when the collaborator
rejects every move it returns zero positions (the game is then imported
normally with no index rows); the JavaScript extractor instead always
returns at least the initial position. -/
theorem malformed_game_decode_behavior {σ τ : Type}
    (step : σ → String → Option σ) (fenOf : σ → String)
    (hashF : String → String) (init : σ) (moveText : String)
    (stepJs : τ → String → Option (τ × String)) (fenOfJs : τ → String)
    (initJs : τ) (pgn : String)
    (hfail : ∀ st m, step st m = none) :
    goExtractPositions step fenOf hashF init moveText = ([], none) ∧
    1 ≤ (extractAllPositions stepJs fenOfJs initJs pgn).length := by
  constructor
  · unfold goExtractPositions
    rw [goReplay_all_fail step fenOf hashF hfail]
  · simp [extractAllPositions]

/-- C9 witness: the decode behaviour instantiated on the always-failing
collaborator and the junk move text. -/
theorem malformed_game_decode_behavior_witness :
    goExtractPositions (fun (_ : Unit) (_ : String) => none)
      (fun _ => startFen) (fun s => s) () junkMoves = ([], none) ∧
    1 ≤ (extractAllPositions (fun (_ : Unit) (_ : String) =>
      (none : Option (Unit × String))) (fun _ => startFen) ()
      junkMoves).length :=
  malformed_game_decode_behavior (fun _ _ => none) (fun _ => startFen)
    (fun s => s) () junkMoves (fun _ _ => none) (fun _ => startFen) ()
    junkMoves (fun _ _ => rfl)

theorem toUint32_lt (i : Int) : toUint32 i < 2 ^ 32 := by
  unfold toUint32
  have h1 : (0 : Int) ≤ i % (2 ^ 32) := Int.emod_nonneg i (by norm_num)
  have h2 : i % (2 ^ 32) < 2 ^ 32 := Int.emod_lt_of_pos i (by norm_num)
  omega

theorem toInt32_range (i : Int) :
    -2 ^ 31 ≤ toInt32 i ∧ toInt32 i < 2 ^ 31 := by
  unfold toInt32
  have hu := toUint32_lt i
  by_cases hc : toUint32 i < 2 ^ 31
  · rw [if_pos hc]
    constructor <;> omega
  · rw [if_neg hc]
    constructor <;> omega

theorem jsXor_range (a b : Int) :
    -2 ^ 31 ≤ jsXor a b ∧ jsXor a b < 2 ^ 31 :=
  toInt32_range _

theorem zobristBoardFold_some (keys : ZKeys) :
    ∀ (l : List Char) (h : Int) (s0 : Nat),
      -2 ^ 31 ≤ h → h < 2 ^ 31 → s0 + rankWidth l ≤ 64 →
      ∃ h2, zobristBoardFold keys l (h, s0) = some (h2, s0 + rankWidth l) ∧
        -2 ^ 31 ≤ h2 ∧ h2 < 2 ^ 31 := by
  intro l
  induction l with
  | nil =>
    intro h s0 h1 h2 _
    refine ⟨h, ?_, h1, h2⟩
    simp [zobristBoardFold, rankWidth]
  | cons c rest ih =>
    intro h s0 h1 h2 hw
    by_cases hsl : c = '/'
    · have hcw : charWidth c = 0 := by rw [hsl]; decide
      have hwidth : rankWidth (c :: rest) = rankWidth rest := by
        simp [rankWidth, hcw]
      rw [hwidth] at hw ⊢
      simp only [zobristBoardFold, if_pos hsl]
      exact ih h s0 h1 h2 hw
    · by_cases hd : isDigit18 c
      · have hwidth : rankWidth (c :: rest) = digitVal c + rankWidth rest := by
          simp [rankWidth, charWidth, hd]
        rw [hwidth] at hw ⊢
        simp only [zobristBoardFold, if_neg hsl, if_pos hd]
        obtain ⟨h2x, hfold, hr⟩ := ih h (s0 + digitVal c) h1 h2 (by omega)
        refine ⟨h2x, ?_, hr⟩
        rw [hfold]
        congr 2
        omega
      · have hwidth : rankWidth (c :: rest) = 1 + rankWidth rest := by
          simp [rankWidth, charWidth, hd, hsl]
        rw [hwidth] at hw ⊢
        have hs : s0 < 64 := by omega
        simp only [zobristBoardFold, if_neg hsl, if_neg (by simp [hd] :
          ¬ isDigit18 c = true), if_pos hs]
        have hx := jsXor_range h (Int.ofNat ((keys.pieceKey s0 c).getD 0))
        obtain ⟨h2x, hfold, hr⟩ := ih _ (s0 + 1) hx.1 hx.2 (by omega)
        refine ⟨h2x, ?_, hr⟩
        rw [hfold]
        congr 2
        omega

theorem castlingFold_range (keys : ZKeys) :
    ∀ (l : List Char) (h : Int), -2 ^ 31 ≤ h → h < 2 ^ 31 →
      -2 ^ 31 ≤ l.foldl (zobristCastlingStep keys) h ∧
        l.foldl (zobristCastlingStep keys) h < 2 ^ 31 := by
  intro l
  induction l with
  | nil => intro h h1 h2; exact ⟨h1, h2⟩
  | cons c rest ih =>
    intro h h1 h2
    simp only [List.foldl_cons]
    have hstep : -2 ^ 31 ≤ zobristCastlingStep keys h c ∧
        zobristCastlingStep keys h c < 2 ^ 31 := by
      unfold zobristCastlingStep
      cases keys.castling c with
      | none => exact ⟨h1, h2⟩
      | some k =>
        by_cases hk : k = 0
        · simp [hk]; omega
        · simp only [if_neg hk]
          exact jsXor_range _ _
    exact ih _ hstep.1 hstep.2

theorem zobristCastlingField_range (keys : ZKeys) (castl : List Char)
    (h : Int) (h1 : -2 ^ 31 ≤ h) (h2 : h < 2 ^ 31) :
    -2 ^ 31 ≤ zobristCastlingField keys castl h ∧
      zobristCastlingField keys castl h < 2 ^ 31 := by
  unfold zobristCastlingField
  by_cases hc : castl = ['-']
  · rw [if_pos hc]; exact ⟨h1, h2⟩
  · rw [if_neg hc]; exact castlingFold_range keys castl h h1 h2

theorem zobristTurnStep_range (keys : ZKeys) (turn : List Char)
    (h : Int) (h1 : -2 ^ 31 ≤ h) (h2 : h < 2 ^ 31) :
    -2 ^ 31 ≤ zobristTurnStep keys turn h ∧
      zobristTurnStep keys turn h < 2 ^ 31 := by
  unfold zobristTurnStep
  by_cases ht : turn = ['b']
  · rw [if_pos ht]; exact jsXor_range _ _
  · rw [if_neg ht]; exact ⟨h1, h2⟩

theorem computeZobristHashInt_range
    (keys : ZKeys) (fen : String) (hwf : wellFormedFEN fen) :
    ∃ h, computeZobristHashInt keys fen = some h ∧
      -2 ^ 31 ≤ h ∧ h < 2 ^ 31 := by
  obtain ⟨hlen, hranks, -⟩ := hwf
  have hb : rankWidth ((splitOnChar ' ' fen.data).headD []) = 64 := by
    have hjoin := joinSep_splitOnChar '/' ((splitOnChar ' ' fen.data).headD [])
    rw [← hjoin, rankWidth_joinSep]
    rw [show splitOnChar '/' ((splitOnChar ' ' fen.data).headD []) =
      boardRanksOf fen from rfl]
    have hall : ∀ x ∈ (boardRanksOf fen).map rankWidth, x = 8 := by
      intro x hx
      obtain ⟨g, hg, hgx⟩ := List.mem_map.mp hx
      rw [← hgx]
      exact hranks g hg
    rw [List.sum_eq_card_nsmul _ 8 hall]
    simp only [List.length_map]
    rw [hlen]
    rfl
  obtain ⟨h2, hfold, hr1, hr2⟩ := zobristBoardFold_some keys
    ((splitOnChar ' ' fen.data).headD []) 0 0 (by norm_num) (by norm_num)
    (by rw [hb])
  unfold computeZobristHashInt
  rw [hfold]
  have ht := zobristTurnStep_range keys
    ((splitOnChar ' ' fen.data).getD 1 []) h2 hr1 hr2
  have hc := zobristCastlingField_range keys
    ((splitOnChar ' ' fen.data).getD 2 []) _ ht.1 ht.2
  exact ⟨_, rfl, hc.1, hc.2⟩

/-- C10: every xor in `computeZobristHash` coerces both operands to
32-bit integers, so although every generated key-table entry is drawn
from `[0, 2^53)`, the content fingerprint of any well-formed FEN is the
decimal string of a signed 32-bit integer — the fingerprint space has
at most `2^32` values. -/
theorem zobrist_hash_int32_range
    (rand : Nat → Nat) (fen : String)
    (hrand : ∀ i, rand i < 2 ^ 53 - 1) (hwf : wellFormedFEN fen) :
    (∀ sq c k, (generateZobristKeys rand).pieceKey sq c = some k →
      k < 2 ^ 53) ∧
    ∃ h : Int, computeZobristHashInt (generateZobristKeys rand) fen = some h ∧
      -2 ^ 31 ≤ h ∧ h < 2 ^ 31 ∧
      computeZobristHash (generateZobristKeys rand) fen =
        some (toString h) := by
  constructor
  · intro sq c k hk
    simp only [generateZobristKeys] at hk
    by_cases hs : sq < 64
    · rw [if_pos hs] at hk
      obtain ⟨i, _, hik⟩ := Option.map_eq_some'.mp hk
      have := hrand (sq * 12 + i)
      omega
    · rw [if_neg hs] at hk
      exact absurd hk (by simp)
  · obtain ⟨h, hsome, h1, h2⟩ :=
      computeZobristHashInt_range (generateZobristKeys rand) fen hwf
    refine ⟨h, hsome, h1, h2, ?_⟩
    unfold computeZobristHash
    rw [hsome]
    rfl

/-- C10 witness: the 32-bit range instantiated on the all-zero draw
stream and the standard initial position. -/
theorem zobrist_hash_int32_range_witness :
    wellFormedFEN startFen ∧
    ∃ h : Int,
      computeZobristHashInt (generateZobristKeys (fun _ => 0)) startFen =
        some h ∧ -2 ^ 31 ≤ h ∧ h < 2 ^ 31 :=
  ⟨by decide, by
    obtain ⟨-, h, hs, h1, h2, -⟩ := zobrist_hash_int32_range (fun _ => 0)
      startFen (fun i => by norm_num) (by decide)
    exact ⟨h, hs, h1, h2⟩⟩

theorem idxOfChar_append {t : Char} :
    ∀ {l1 : List Char} (l2 : List Char), t ∉ l1 →
      idxOfChar t (l1 ++ t :: l2) = some l1.length := by
  intro l1
  induction l1 with
  | nil => intro l2 _; simp [idxOfChar]
  | cons c rest ih =>
    intro l2 h
    simp only [List.cons_append, idxOfChar]
    rw [if_neg (fun he => h (by rw [← he]; exact List.mem_cons_self _ _))]
    simp only [List.append_eq]
    rw [ih l2 (fun hm => h (List.mem_cons_of_mem _ hm))]
    rfl

theorem mem_joinPipe {x : Char} :
    ∀ {cs : List Char}, x ∈ joinPipe cs → x ∈ cs ∨ x = '|' := by
  intro cs
  induction cs with
  | nil => intro h; simp [joinPipe] at h
  | cons c rest ih =>
    cases rest with
    | nil =>
      intro h
      simp [joinPipe] at h
      exact Or.inl (by simp [h])
    | cons c2 rest2 =>
      intro h
      have hj : joinPipe (c :: c2 :: rest2) =
          c :: '|' :: joinPipe (c2 :: rest2) := rfl
      rw [hj] at h
      rcases List.mem_cons.mp h with h1 | h1
      · exact Or.inl (by simp [h1])
      · rcases List.mem_cons.mp h1 with h2 | h2
        · exact Or.inr h2
        · rcases ih h2 with h3 | h3
          · exact Or.inl (List.mem_cons_of_mem _ h3)
          · exact Or.inr h3

theorem splitPipe_joinPipe :
    ∀ {cs : List Char}, cs ≠ [] → (∀ c ∈ cs, c ≠ '|') →
      splitPipe (joinPipe cs) = cs.map (fun c => [c]) := by
  intro cs
  induction cs with
  | nil => intro h _; exact absurd rfl h
  | cons c rest ih =>
    intro _ hall
    have hc : c ≠ '|' := hall c (List.mem_cons_self _ _)
    cases rest with
    | nil => simp [joinPipe, splitPipe, hc]
    | cons c2 rest2 =>
      have ih2 := ih (by simp)
        (fun x hx => hall x (List.mem_cons_of_mem _ hx))
      have hj : joinPipe (c :: c2 :: rest2) =
          c :: '|' :: joinPipe (c2 :: rest2) := rfl
      rw [hj]
      simp only [splitPipe, if_neg hc, if_pos rfl]
      rw [ih2]
      simp

theorem parseRankAltsF_render :
    ∀ (items : List PatItem) (file fuel : Nat),
      (renderItems items).length ≤ fuel →
      (∀ it ∈ items, itemOk it = true) →
      parseRankAltsF fuel (renderItems items) file =
        compileItems items file := by
  intro items
  induction items with
  | nil =>
    intro file fuel _ _
    cases fuel <;> rfl
  | cons it rest ih =>
    intro file fuel hlen hok
    have hokit := hok it (List.mem_cons_self _ _)
    have hokrest : ∀ x ∈ rest, itemOk x = true :=
      fun x hx => hok x (List.mem_cons_of_mem _ hx)
    have hrend : renderItems (it :: rest) =
        renderItem it ++ renderItems rest := by
      simp [renderItems]
    cases it with
    | skip n =>
      simp only [itemOk, Bool.and_eq_true, decide_eq_true_eq] at hokit
      cases fuel with
      | zero =>
        rw [hrend] at hlen
        simp [renderItem] at hlen
      | succ fuel =>
        rw [hrend]
        show parseRankAltsF (fuel + 1)
          (Char.ofNat (48 + n) :: renderItems rest) file = _
        have hdig : isDigit18 (Char.ofNat (48 + n)) = true ∧
            digitVal (Char.ofNat (48 + n)) = n := by
          obtain ⟨hn1, hn8⟩ := hokit
          interval_cases n <;> exact ⟨by decide, by decide⟩
        simp only [parseRankAltsF, hdig.1, if_true, hdig.2]
        show parseRankAltsF fuel (renderItems rest) (file + n) = _
        rw [ih (file + n) fuel (by
          rw [hrend] at hlen
          simp [renderItem] at hlen
          omega) hokrest]
        rfl
    | sym c =>
      simp only [itemOk, Bool.and_eq_true, Bool.not_eq_true',
        decide_eq_false_iff_not] at hokit
      cases fuel with
      | zero =>
        rw [hrend] at hlen
        simp [renderItem] at hlen
      | succ fuel =>
        rw [hrend]
        show parseRankAltsF (fuel + 1) (c :: renderItems rest) file = _
        simp only [parseRankAltsF, hokit.1, Bool.false_eq_true, if_false,
          if_neg hokit.2]
        rw [ih (file + 1) fuel (by
          rw [hrend] at hlen
          simp [renderItem] at hlen
          omega) hokrest]
        rfl
    | group cs =>
      simp only [itemOk, Bool.and_eq_true, Bool.not_eq_true',
        List.isEmpty_eq_false, List.all_eq_true, Bool.and_eq_true,
        decide_eq_false_iff_not] at hokit
      obtain ⟨hne, hcs⟩ := hokit
      have hnr : ']' ∉ joinPipe cs := by
        intro hm
        rcases mem_joinPipe hm with h1 | h1
        · exact (hcs _ h1).1 rfl
        · exact absurd h1 (by decide)
      cases fuel with
      | zero =>
        rw [hrend] at hlen
        simp [renderItem] at hlen
      | succ fuel =>
        rw [hrend]
        have hflat : renderItem (.group cs) ++ renderItems rest =
            '[' :: (joinPipe cs ++ ']' :: renderItems rest) := by
          simp [renderItem]
        rw [hflat]
        have hnd : isDigit18 '[' = false := by decide
        simp only [parseRankAltsF, hnd, Bool.false_eq_true, if_false]
        rw [if_pos trivial]
        rw [idxOfChar_append (renderItems rest) hnr]
        simp only []
        rw [List.take_left]
        have hdrop : List.drop ((joinPipe cs).length + 1)
            (joinPipe cs ++ ']' :: renderItems rest) = renderItems rest := by
          rw [show joinPipe cs ++ ']' :: renderItems rest =
            (joinPipe cs ++ [']']) ++ renderItems rest by simp]
          rw [List.drop_left' (by simp)]
        rw [hdrop]
        rw [ih (file + 1) fuel (by
          rw [hrend] at hlen
          simp [renderItem] at hlen
          omega) hokrest]
        rw [splitPipe_joinPipe hne (fun c hc => (hcs c hc).2)]
        simp [compileItems, List.map_map]

/-- C5: on every rank of the pattern grammar — a sequence of run-length
digits 1-8, bare non-digit non-bracket symbols, and terminated bracket
groups of symbols free of `]` and `|` — the shared constraint scan of
`parsePatternRequirements` and `searchPositionPattern` compiles exactly
as specified: a digit advances the file cursor by its value emitting no
constraint (skipped squares are unconstrained wildcards, never
must-be-empty), a bare symbol emits one single-alternative constraint,
a bracket group emits one constraint listing every alternative, and the
file cursor advances by exactly one square per symbol or group — never
by the number of alternatives. -/
theorem compile_pattern_grammar_correct
    (items : List PatItem) (file : Nat)
    (hok : ∀ it ∈ items, itemOk it = true) :
    parseRankAlts (renderItems items) file = compileItems items file :=
  parseRankAltsF_render items file (renderItems items).length (le_refl _) hok

/-- C5 witness: the grammar correspondence instantiated on the rank
`3K[Q|R]3`. -/
theorem compile_pattern_grammar_correct_witness :
    (∀ it ∈ demoItems, itemOk it = true) ∧
    renderItems demoItems = String.data ("3K[Q|R]3") ∧
    compileItems demoItems 0 = [(3, ["K"]), (4, ["Q", "R"])] ∧
    parseRankAlts (renderItems demoItems) 0 = compileItems demoItems 0 :=
  ⟨by decide, by decide, by decide,
    compile_pattern_grammar_correct demoItems 0 (by decide)⟩
